import Mathlib

/-!
Verification of the hybrid retrieval-fusion-rerank pipeline specification
for the Simple-ragchat repository.

The backend modules (fusion ranker, generation orchestrator, session
manager, dual retriever, reranker) are described by the specification but
their Python sources are not present in this tree, so they are modelled
from the specification text.  The widget TypeScript sources
(chatAPI.ts, sanitizer.ts) are present and are embedded directly.
-/

/-! ## Fusion Ranker (spec section 4.3) -/

/-- Candidate identity: candidates are deduplicated by
(documentId, chunkId). -/
structure CandKey where
  documentId : String
  chunkId : Nat
deriving DecidableEq, Repr

/-- Modelled from the spec: missing backend module retrieval_rerank.py.
Zero-based position of a candidate key in a ranked list, if present. -/
def rankIn (c : CandKey) : List CandKey → Option Nat
  | [] => none
  | d :: ds => if d = c then some 0 else (rankIn c ds).map (· + 1)

/-- Modelled from the spec: missing backend module retrieval_rerank.py.
Reciprocal-rank term of one list: 1/(k + rank) with one-based rank when
the candidate appears in the list, and zero when it does not (the spec
mandates zero, not an infinite penalty). -/
def rrfTerm (k : ℚ) (c : CandKey) (l : List CandKey) : ℚ :=
  match rankIn c l with
  | some i => 1 / (k + (i + 1 : ℕ))
  | none => 0

/-- Modelled from the spec: missing backend module retrieval_rerank.py.
Fused RRF score: w_dense * 1/(k + rank_dense) + w_sparse * 1/(k + rank_sparse),
summing the two contributions when the candidate is in both lists. -/
def rrfScore (wD wS k : ℚ) (dense sparse : List CandKey) (c : CandKey) : ℚ :=
  wD * rrfTerm k c dense + wS * rrfTerm k c sparse

/-- Modelled from the spec: missing backend module retrieval_rerank.py.
First-occurrence deduplication with an accumulator of already seen keys. -/
def dedupAux : List CandKey → List CandKey → List CandKey
  | [], _ => []
  | c :: cs, seen => if c ∈ seen then dedupAux cs seen else c :: dedupAux cs (c :: seen)

/-- Modelled from the spec: missing backend module retrieval_rerank.py.
Union of the two candidate lists, deduplicated by (documentId, chunkId),
in dense-then-sparse first-occurrence order (the stable tie-break order). -/
def unionKeys (dense sparse : List CandKey) : List CandKey :=
  dedupAux (dense ++ sparse) []

/-- Modelled from the spec: missing backend module retrieval_rerank.py.
Every candidate of the union paired with its fused RRF score. -/
def fusedAll (wD wS k : ℚ) (dense sparse : List CandKey) : List (CandKey × ℚ) :=
  (unionKeys dense sparse).map (fun c => (c, rrfScore wD wS k dense sparse c))

/-- Descending order on scored candidates. -/
def scoreGe (a b : CandKey × ℚ) : Prop := b.2 ≤ a.2

instance : DecidableRel scoreGe := fun a b => inferInstanceAs (Decidable (b.2 ≤ a.2))

instance : IsTotal (CandKey × ℚ) scoreGe := ⟨fun a b => le_total b.2 a.2⟩

instance : IsTrans (CandKey × ℚ) scoreGe := ⟨fun _ _ _ h1 h2 => le_trans h2 h1⟩

/-- Modelled from the spec: missing backend module retrieval_rerank.py.
Fusion output: single list sorted descending by fused score (stable, so
the dense-then-sparse union order wins ties), truncated to final_limit. -/
def fuse (wD wS k : ℚ) (dense sparse : List CandKey) (finalLimit : Nat) :
    List (CandKey × ℚ) :=
  (List.insertionSort scoreGe (fusedAll wD wS k dense sparse)).take finalLimit

/-! ### Basic lemmas about the fusion model -/

theorem rankIn_eq_none_iff (c : CandKey) (l : List CandKey) :
    rankIn c l = none ↔ c ∉ l := by
  induction l with
  | nil => simp [rankIn]
  | cons d ds ih =>
    by_cases h : d = c
    · simp [rankIn, h]
    · simp only [rankIn, if_neg h, Option.map_eq_none', ih, List.mem_cons]
      constructor
      · intro hn hm
        rcases hm with hm | hm
        · exact h hm.symm
        · exact hn hm
      · intro hn hm
        exact hn (Or.inr hm)

theorem mem_dedupAux {c : CandKey} {l seen : List CandKey} :
    c ∈ dedupAux l seen ↔ c ∈ l ∧ c ∉ seen := by
  induction l generalizing seen with
  | nil => simp [dedupAux]
  | cons d ds ih =>
    by_cases h : d ∈ seen
    · rw [dedupAux, if_pos h, ih]
      simp only [List.mem_cons]
      constructor
      · rintro ⟨h1, h2⟩
        exact ⟨Or.inr h1, h2⟩
      · rintro ⟨h1 | h1, h2⟩
        · exact absurd (h1.symm ▸ h) h2
        · exact ⟨h1, h2⟩
    · rw [dedupAux, if_neg h]
      simp only [List.mem_cons, ih, List.mem_cons]
      constructor
      · rintro (h1 | ⟨h1, h2⟩)
        · exact ⟨Or.inl h1, fun hc => h (h1 ▸ hc)⟩
        · exact ⟨Or.inr h1, fun hc => h2 (Or.inr hc)⟩
      · rintro ⟨h1 | h1, h2⟩
        · exact Or.inl h1
        · by_cases hc : c = d
          · exact Or.inl hc
          · exact Or.inr ⟨h1, fun hs => hs.elim hc h2⟩

theorem nodup_dedupAux (l seen : List CandKey) : (dedupAux l seen).Nodup := by
  induction l generalizing seen with
  | nil => simp [dedupAux]
  | cons d ds ih =>
    by_cases h : d ∈ seen
    · rw [dedupAux, if_pos h]
      exact ih seen
    · rw [dedupAux, if_neg h]
      refine List.Nodup.cons ?_ (ih (d :: seen))
      intro hd
      rcases mem_dedupAux.mp hd with ⟨_, h2⟩
      exact h2 (List.mem_cons_self d seen)

theorem mem_unionKeys {c : CandKey} {dense sparse : List CandKey} :
    c ∈ unionKeys dense sparse ↔ c ∈ dense ∨ c ∈ sparse := by
  rw [unionKeys, mem_dedupAux]
  simp

theorem rankIn_mem {c : CandKey} {l : List CandKey} {i : Nat}
    (h : rankIn c l = some i) : c ∈ l := by
  by_contra hn
  rw [← rankIn_eq_none_iff] at hn
  rw [hn] at h
  exact Option.noConfusion h

/-! ## Generation Orchestrator (spec section 4.5) -/

/-- Outcome classification of a single provider call. -/
inductive CallOutcome where
  | success
  | retriableFailure
  | nonRetriableFailure
deriving DecidableEq, Repr

/-- Record of one provider attempt. -/
structure Attempt where
  provider : String
  outcome : CallOutcome
deriving DecidableEq, Repr

/-- Result of a successful generation: the provider that answered and the
full ordered attempt trail. -/
structure GenerationResult where
  usedProvider : String
  attempts : List Attempt
deriving DecidableEq, Repr

/-- Outcome of the orchestrator: success with a GenerationResult, or
GenerationExhaustedError carrying the full attempt trail. -/
inductive GenOutcome where
  | ok (result : GenerationResult)
  | exhausted (attempts : List Attempt)
deriving DecidableEq, Repr

/-- Modelled from the spec: missing backend module generation.py.
Failover loop over providerOrder: each provider is called once; on
success the orchestrator stops and records the provider, on any failure
it records the attempt and advances to the next provider; when the order
is exhausted it surfaces GenerationExhaustedError with the attempt trail. -/
def orchestrate (call : String → CallOutcome) :
    List String → List Attempt → GenOutcome
  | [], acc => .exhausted acc
  | p :: ps, acc =>
    match call p with
    | .success => .ok ⟨p, acc ++ [⟨p, .success⟩]⟩
    | .retriableFailure => orchestrate call ps (acc ++ [⟨p, .retriableFailure⟩])
    | .nonRetriableFailure => orchestrate call ps (acc ++ [⟨p, .nonRetriableFailure⟩])

/-! ## Session Context Manager (spec section 4.6) -/

/-- Session state: bounded exchange window plus lifecycle timestamps. -/
structure Session where
  sessionId : String
  exchanges : List (String × String)
  createdAt : Nat
  lastAccessAt : Nat
  expiresAt : Nat
deriving DecidableEq, Repr

/-- Modelled from the spec: missing backend module session.py.
Lookup of a session by id in the association-list store. -/
def lookupSession : List (String × Session) → String → Option Session
  | [], _ => none
  | e :: es, sid => if e.1 = sid then some e.2 else lookupSession es sid

/-- Modelled from the spec: missing backend module session.py.
Removal (purge) of a session id from the store. -/
def removeSession : List (String × Session) → String → List (String × Session)
  | [], _ => []
  | e :: es, sid => if e.1 = sid then removeSession es sid else e :: removeSession es sid

/-- Modelled from the spec: missing backend module session.py.
Replacement of the stored session for an id already present. -/
def updateSession : List (String × Session) → String → Session → List (String × Session)
  | [], _, _ => []
  | e :: es, sid, s => if e.1 = sid then (sid, s) :: es else e :: updateSession es sid s

/-- Modelled from the spec: missing backend module session.py.
Trim an exchange list to its most recent n entries. -/
def trimTo (n : Nat) (l : List (String × String)) : List (String × String) :=
  l.drop (l.length - n)

/-- Modelled from the spec: missing backend module session.py.
The append operation: creates a Session on first use, otherwise appends
the (query, answer) pair, trims the exchange list to the most recent n,
and resets expiresAt = now + ttl. -/
def appendExchange (store : List (String × Session)) (sid q a : String)
    (now n ttl : Nat) : List (String × Session) :=
  match lookupSession store sid with
  | none => (sid, ⟨sid, trimTo n [(q, a)], now, now, now + ttl⟩) :: store
  | some s =>
    updateSession store sid
      { s with
        exchanges := trimTo n (s.exchanges ++ [(q, a)])
        lastAccessAt := now
        expiresAt := now + ttl }

/-- Modelled from the spec: missing backend module session.py.
The get operation with lazy expiry: an expired session (expiresAt has
passed) is treated as NotFound and purged from the store. -/
def getSession (store : List (String × Session)) (sid : String) (now : Nat) :
    Option Session × List (String × Session) :=
  match lookupSession store sid with
  | none => (none, store)
  | some s =>
    if s.expiresAt < now then (none, removeSession store sid) else (some s, store)

/-! ## Dual Retriever partial-failure policy (spec section 4.2) -/

/-- Outcome of one branch search: a ranked candidate list, or failure
(which includes a timeout of that branch). -/
inductive SearchOutcome where
  | ok (candidates : List CandKey)
  | failed
deriving DecidableEq, Repr

/-- Retrieval result: the two candidate lists plus the degradation flag. -/
structure RetrievalOutcome where
  dense : List CandKey
  sparse : List CandKey
  degraded : Bool
deriving DecidableEq, Repr

/-- Fatal retrieval error: both branches failed. -/
inductive RetrievalError where
  | bothFailed
deriving DecidableEq, Repr

/-- Modelled from the spec: missing backend module retrieval_rerank.py.
Partial-failure policy of the dual retriever: one failed branch leaves a
degraded result built only from the successful list; two failed branches
fail the pipeline with RetrievalError. -/
def dualRetrieve : SearchOutcome → SearchOutcome → Except RetrievalError RetrievalOutcome
  | .ok d, .ok s => .ok ⟨d, s, false⟩
  | .ok d, .failed => .ok ⟨d, [], true⟩
  | .failed, .ok s => .ok ⟨[], s, true⟩
  | .failed, .failed => .error .bothFailed

/-! ## Reranker (spec section 4.4) -/

/-- Candidate after the rerank stage: the rerankScore field is added and
a candidate whose individual scoring call failed is flagged. -/
structure RerankedCand where
  cand : CandKey
  rerankScore : Option ℚ
  rerankFailed : Bool
deriving DecidableEq, Repr

/-- Modelled from the spec: missing backend module retrieval_rerank.py.
Scoring of one candidate by the pluggable backend; a failed individual
call yields no score and the rerankFailed flag. -/
def scoreCand (score : CandKey → Option ℚ) (c : CandKey) : RerankedCand :=
  match score c with
  | some s => ⟨c, some s, false⟩
  | none => ⟨c, none, true⟩

/-- Descending order on reranked candidates by rerank score. -/
def rerankGe (a b : RerankedCand) : Prop :=
  b.rerankScore.getD 0 ≤ a.rerankScore.getD 0

instance : DecidableRel rerankGe :=
  fun a b => inferInstanceAs (Decidable (b.rerankScore.getD 0 ≤ a.rerankScore.getD 0))

instance : IsTotal RerankedCand rerankGe :=
  ⟨fun a b => le_total (b.rerankScore.getD 0) (a.rerankScore.getD 0)⟩

instance : IsTrans RerankedCand rerankGe :=
  ⟨fun _ _ _ h1 h2 => le_trans h2 h1⟩

/-- Modelled from the spec: missing backend module retrieval_rerank.py.
Reassembly of the reranked list: candidates whose scoring call failed
keep their fused rank position; the remaining positions are filled, in
order, with the successfully scored candidates sorted descending. -/
def placeBack : List RerankedCand → List RerankedCand → List RerankedCand
  | [], _ => []
  | e :: es, ss =>
    if e.rerankFailed then e :: placeBack es ss
    else
      match ss with
      | s :: ss2 => s :: placeBack es ss2
      | [] => e :: placeBack es []

/-- Modelled from the spec: missing backend module retrieval_rerank.py.
The rerank operation: every candidate is scored, the successfully scored
ones are re-sorted descending by rerankScore, and candidates whose
individual scoring call failed keep their fused rank position. -/
def rerank (score : CandKey → Option ℚ) (fused : List CandKey) : List RerankedCand :=
  let scored := fused.map (scoreCand score)
  placeBack scored
    (List.insertionSort rerankGe (scored.filter (fun e => !e.rerankFailed)))

/-- Modelled from the spec: missing backend module retrieval_rerank.py.
The rerank stage of the pipeline: with no available backend the fusion
order is returned unchanged and the result is flagged degraded. -/
def rerankStage (backend : Option (CandKey → Option ℚ)) (fused : List CandKey) :
    List RerankedCand × Bool :=
  match backend with
  | none => (fused.map (fun c => ⟨c, none, false⟩), true)
  | some f => (rerank f fused, false)

/-! ## ChatAPIService.fetchWithRetry (src/widget/src/services/chatAPI.ts) -/

/-- HTTP response as seen by fetchWithRetry: the ok flag and the status. -/
structure HttpResponse where
  ok : Bool
  status : Nat
deriving DecidableEq, Repr

/-- Outcome of one fetch call: a response, an abort, or a network error. -/
inductive FetchOutcome where
  | resp (r : HttpResponse)
  | abortError
  | netError
deriving DecidableEq, Repr

/-- Error value carried when the retry loop gives up. -/
inductive FetchErr where
  | http (status : Nat)
  | network
deriving DecidableEq, Repr

/-- Final result of fetchWithRetry: a returned response (with the index of
the attempt that produced it), an AbortError rethrown immediately, or the
last error thrown after the loop is exhausted. -/
inductive RetryResult where
  | returned (r : HttpResponse) (attempt : Nat)
  | abortThrown (attempt : Nat)
  | exhausted (lastErr : FetchErr)
deriving DecidableEq, Repr

/-- Trace of one fetchWithRetry run: its result, the number of fetch
calls made, and the backoff delays (in milliseconds) inserted between
consecutive attempts, in order. -/
structure RetryTrace where
  result : RetryResult
  attempts : Nat
  delays : List Nat
deriving DecidableEq, Repr

/-- Condition under which fetchWithRetry returns the response at once:
response.ok, or a client-error status in [400, 500). -/
def retOK (r : HttpResponse) : Bool :=
  r.ok || (decide (400 ≤ r.status) && decide (r.status < 500))

/-- Backoff delay before the attempt following attempt number a:
min(1000 * 2^a, 5000) milliseconds. -/
def backoffDelay (a : Nat) : Nat :=
  min (1000 * 2 ^ a) 5000

/-- Body of the fetchWithRetry loop of ChatAPIService: attempt is the
current attempt index, rem the number of retries still available
(maxRetries - attempt).  outcomes gives the result of the fetch call of
each attempt index. -/
def retryGo (outcomes : Nat → FetchOutcome) (attempt : Nat) : Nat → RetryTrace
  | 0 =>
    match outcomes attempt with
    | .resp r =>
      if retOK r then ⟨.returned r attempt, 1, []⟩
      else ⟨.exhausted (.http r.status), 1, []⟩
    | .abortError => ⟨.abortThrown attempt, 1, []⟩
    | .netError => ⟨.exhausted .network, 1, []⟩
  | rem + 1 =>
    match outcomes attempt with
    | .resp r =>
      if retOK r then ⟨.returned r attempt, 1, []⟩
      else
        let t := retryGo outcomes (attempt + 1) rem
        ⟨t.result, t.attempts + 1, backoffDelay attempt :: t.delays⟩
    | .abortError => ⟨.abortThrown attempt, 1, []⟩
    | .netError =>
      let t := retryGo outcomes (attempt + 1) rem
      ⟨t.result, t.attempts + 1, backoffDelay attempt :: t.delays⟩

/-- ChatAPIService.fetchWithRetry: up to maxRetries + 1 attempts starting
at attempt index 0. -/
def fetchWithRetry (outcomes : Nat → FetchOutcome) (maxRetries : Nat) : RetryTrace :=
  retryGo outcomes 0 maxRetries

/-! ## RateLimiter (src/widget/src/utils/sanitizer.ts) -/

/-- RateLimiter state: the sliding window of admitted request timestamps
plus the two configuration constants. -/
structure RateLimiter where
  requests : List Int
  maxRequests : Nat
  windowMs : Int
deriving DecidableEq, Repr

/-- RateLimiter.isAllowed: drops timestamps outside the window, admits
the request (recording now) when strictly fewer than maxRequests remain. -/
def RateLimiter.isAllowed (rl : RateLimiter) (now : Int) : Bool × RateLimiter :=
  let reqs := rl.requests.filter (fun t => now - t < rl.windowMs)
  if reqs.length < rl.maxRequests then
    (true, { rl with requests := reqs ++ [now] })
  else
    (false, { rl with requests := reqs })

/-- RateLimiter.getRemainingRequests: max(0, maxRequests - live requests). -/
def RateLimiter.getRemainingRequests (rl : RateLimiter) (now : Int) :
    Int × RateLimiter :=
  let reqs := rl.requests.filter (fun t => now - t < rl.windowMs)
  (max 0 ((rl.maxRequests : Int) - reqs.length), { rl with requests := reqs })

/-- Run of a RateLimiter over a sequence of call times: final state plus
the list of admitted call times in order. -/
def runLimiter (rl : RateLimiter) : List Int → RateLimiter × List Int
  | [] => (rl, [])
  | t :: ts =>
    let step := rl.isAllowed t
    let rest := runLimiter step.2 ts
    (rest.1, (if step.1 then [t] else []) ++ rest.2)

/-! ## Claim C1, C2, C8: fusion ranker theorems -/

theorem rrfTerm_empty (k : ℚ) (c : CandKey) : rrfTerm k c [] = 0 := rfl

theorem rrfTerm_of_rank {k : ℚ} {c : CandKey} {l : List CandKey} {i : Nat}
    (h : rankIn c l = some i) : rrfTerm k c l = 1 / (k + (i + 1 : ℕ)) := by
  simp [rrfTerm, h]

theorem rrfTerm_of_not_mem {k : ℚ} {c : CandKey} {l : List CandKey}
    (h : c ∉ l) : rrfTerm k c l = 0 := by
  simp [rrfTerm, (rankIn_eq_none_iff c l).mpr h]

theorem rrfTerm_nonneg (k : ℚ) (c : CandKey) (l : List CandKey) (hk : 0 < k) :
    0 ≤ rrfTerm k c l := by
  have hk2 : (0 : ℚ) ≤ k := le_of_lt hk
  unfold rrfTerm
  cases h : rankIn c l with
  | none => exact le_refl 0
  | some i =>
    exact div_nonneg zero_le_one (add_nonneg hk2 (Nat.cast_nonneg _))

theorem mem_fusedAll_iff {wD wS k : ℚ} {dense sparse : List CandKey}
    {c : CandKey} {q : ℚ} :
    (c, q) ∈ fusedAll wD wS k dense sparse ↔
      c ∈ unionKeys dense sparse ∧ q = rrfScore wD wS k dense sparse c := by
  constructor
  · intro h
    rcases List.mem_map.mp h with ⟨a, ha, hEq⟩
    obtain ⟨h1, h2⟩ := Prod.mk.injEq .. ▸ hEq
    subst h1
    exact ⟨ha, h2.symm⟩
  · rintro ⟨h1, h2⟩
    subst h2
    exact List.mem_map_of_mem _ h1

/-- C1: every candidate appearing in either input list appears in the fused
candidate set exactly once (deduplicated by (documentId, chunkId)), with
fused score w_dense * 1/(k + rank_dense) + w_sparse * 1/(k + rank_sparse);
the rank term of a list the candidate does not appear in contributes zero,
and a candidate in both lists has both rank contributions summed. -/
theorem fusion_assigns_rrf_scores (wD wS k : ℚ) (dense sparse : List CandKey) :
    (∀ c, (∃ q, (c, q) ∈ fusedAll wD wS k dense sparse) ↔ (c ∈ dense ∨ c ∈ sparse)) ∧
    ((fusedAll wD wS k dense sparse).map Prod.fst).Nodup ∧
    (∀ c i j, rankIn c dense = some i → rankIn c sparse = some j →
      (c, wD * (1 / (k + (i + 1 : ℕ))) + wS * (1 / (k + (j + 1 : ℕ)))) ∈
        fusedAll wD wS k dense sparse) ∧
    (∀ c i, rankIn c dense = some i → c ∉ sparse →
      (c, wD * (1 / (k + (i + 1 : ℕ)))) ∈ fusedAll wD wS k dense sparse) ∧
    (∀ c j, c ∉ dense → rankIn c sparse = some j →
      (c, wS * (1 / (k + (j + 1 : ℕ)))) ∈ fusedAll wD wS k dense sparse) := by
  refine ⟨?_, ?_, ?_, ?_, ?_⟩
  · intro c
    constructor
    · rintro ⟨q, hq⟩
      exact mem_unionKeys.mp (mem_fusedAll_iff.mp hq).1
    · intro h
      exact ⟨rrfScore wD wS k dense sparse c,
        mem_fusedAll_iff.mpr ⟨mem_unionKeys.mpr h, rfl⟩⟩
  · have : (fusedAll wD wS k dense sparse).map Prod.fst = unionKeys dense sparse := by
      simp [fusedAll, List.map_map, Function.comp_def]
    rw [this]
    exact nodup_dedupAux _ _
  · intro c i j hd hs
    refine mem_fusedAll_iff.mpr ⟨mem_unionKeys.mpr (Or.inl (rankIn_mem hd)), ?_⟩
    rw [rrfScore, rrfTerm_of_rank hd, rrfTerm_of_rank hs]
  · intro c i hd hs
    refine mem_fusedAll_iff.mpr ⟨mem_unionKeys.mpr (Or.inl (rankIn_mem hd)), ?_⟩
    rw [rrfScore, rrfTerm_of_rank hd, rrfTerm_of_not_mem hs, mul_zero, add_zero]
  · intro c j hd hs
    refine mem_fusedAll_iff.mpr ⟨mem_unionKeys.mpr (Or.inr (rankIn_mem hs)), ?_⟩
    rw [rrfScore, rrfTerm_of_rank hs, rrfTerm_of_not_mem hd, mul_zero, zero_add]

theorem fusion_assigns_rrf_scores_witness :
    (⟨"doc1", 0⟩, (6/10 : ℚ) * (1 / (60 + ((0 : ℕ) + 1 : ℕ))) +
        (4/10 : ℚ) * (1 / (60 + ((1 : ℕ) + 1 : ℕ)))) ∈
      fusedAll (6/10) (4/10) 60 [⟨"doc1", 0⟩, ⟨"doc2", 1⟩]
        [⟨"doc3", 2⟩, ⟨"doc1", 0⟩] :=
  (fusion_assigns_rrf_scores (6/10) (4/10) 60 [⟨"doc1", 0⟩, ⟨"doc2", 1⟩]
      [⟨"doc3", 2⟩, ⟨"doc1", 0⟩]).2.2.1 ⟨"doc1", 0⟩ 0 1 (by decide) (by decide)

/-- C2: the fused list is sorted descending by fused score and its length
is final_limit when the union of distinct candidates has at least
final_limit members, and the size of that union otherwise. -/
theorem fusion_sorted_and_truncated (wD wS k : ℚ) (dense sparse : List CandKey)
    (limit : Nat) :
    (fuse wD wS k dense sparse limit).Sorted scoreGe ∧
    (limit ≤ (unionKeys dense sparse).length →
      (fuse wD wS k dense sparse limit).length = limit) ∧
    ((unionKeys dense sparse).length < limit →
      (fuse wD wS k dense sparse limit).length = (unionKeys dense sparse).length) := by
  have hlen : (fuse wD wS k dense sparse limit).length =
      min limit (unionKeys dense sparse).length := by
    rw [fuse, List.length_take,
      (List.perm_insertionSort scoreGe (fusedAll wD wS k dense sparse)).length_eq,
      fusedAll, List.length_map]
  refine ⟨?_, ?_, ?_⟩
  · exact List.Pairwise.sublist (List.take_sublist _ _)
      (List.sorted_insertionSort scoreGe (fusedAll wD wS k dense sparse))
  · intro h
    rw [hlen]
    omega
  · intro h
    rw [hlen]
    omega

theorem fusion_sorted_and_truncated_witness :
    (fuse (6/10) (4/10) 60 [⟨"doc1", 0⟩] [⟨"doc2", 1⟩] 1).length = 1 :=
  (fusion_sorted_and_truncated (6/10) (4/10) 60 [⟨"doc1", 0⟩] [⟨"doc2", 1⟩] 1).2.1
    (by decide)

/-- C8: with equal weights, a candidate appearing in both lists at ranks
rank_dense and rank_sparse gets a fused score at least the maximum of the
scores it would get appearing in only one of the two lists at the same
rank: appearing in both lists never ranks it lower than appearing in just
its better list. -/
theorem rrf_both_lists_dominates (w k : ℚ) (dense sparse : List CandKey)
    (c : CandKey) (hw : 0 ≤ w) (hk : 0 < k) :
    max (rrfScore w w k dense [] c) (rrfScore w w k [] sparse c) ≤
      rrfScore w w k dense sparse c := by
  have hd := mul_nonneg hw (rrfTerm_nonneg k c dense hk)
  have hs := mul_nonneg hw (rrfTerm_nonneg k c sparse hk)
  rw [max_le_iff]
  constructor
  · simp only [rrfScore, rrfTerm_empty, mul_zero, add_zero]
    exact le_add_of_nonneg_right hs
  · simp only [rrfScore, rrfTerm_empty, mul_zero, zero_add]
    exact le_add_of_nonneg_left hd

theorem rrf_both_lists_dominates_witness :
    max (rrfScore (1/2) (1/2) 60 [⟨"doc1", 0⟩] [] ⟨"doc1", 0⟩)
        (rrfScore (1/2) (1/2) 60 [] [⟨"doc1", 0⟩] ⟨"doc1", 0⟩) ≤
      rrfScore (1/2) (1/2) 60 [⟨"doc1", 0⟩] [⟨"doc1", 0⟩] ⟨"doc1", 0⟩ :=
  rrf_both_lists_dominates (1/2) 60 [⟨"doc1", 0⟩] [⟨"doc1", 0⟩] ⟨"doc1", 0⟩
    (by norm_num) (by norm_num)

/-! ## Claim C3: generation orchestrator -/

theorem orchestrate_fail_step (call : String → CallOutcome) (p : String)
    (ps : List String) (acc : List Attempt) (h : call p ≠ .success) :
    orchestrate call (p :: ps) acc = orchestrate call ps (acc ++ [⟨p, call p⟩]) := by
  cases hc : call p with
  | success => exact absurd hc h
  | retriableFailure => simp [orchestrate, hc]
  | nonRetriableFailure => simp [orchestrate, hc]

theorem orchestrate_all_fail (call : String → CallOutcome) :
    ∀ (order : List String) (acc : List Attempt),
      (∀ p ∈ order, call p ≠ .success) →
      ∃ atts, orchestrate call order acc = .exhausted atts ∧
        atts.length = acc.length + order.length := by
  intro order
  induction order with
  | nil =>
    intro acc _
    exact ⟨acc, rfl, by simp [orchestrate]⟩
  | cons p ps ih =>
    intro acc h
    rw [orchestrate_fail_step call p ps acc (h p (List.mem_cons_self p ps))]
    rcases ih (acc ++ [⟨p, call p⟩]) (fun q hq => h q (List.mem_cons_of_mem p hq)) with
      ⟨atts, h1, h2⟩
    refine ⟨atts, h1, ?_⟩
    rw [h2]
    simp
    omega

/-- C3: with providerOrder [A, B, C] where the calls to A and B fail and
the call to C succeeds, the orchestrator returns a GenerationResult whose
attempts trail has length 3 and whose usedProvider is C; with every
provider failing it surfaces GenerationExhaustedError whose attempts
trail has the length of providerOrder. -/
theorem orchestrator_failover (call : String → CallOutcome) (A B C : String)
    (hA : call A ≠ .success) (hB : call B ≠ .success) (hC : call C = .success) :
    (∃ r, orchestrate call [A, B, C] [] = .ok r ∧
      r.attempts.length = 3 ∧ r.usedProvider = C) ∧
    (∀ order, (∀ p ∈ order, call p ≠ .success) →
      ∃ atts, orchestrate call order [] = .exhausted atts ∧
        atts.length = order.length) := by
  constructor
  · rw [orchestrate_fail_step call A [B, C] [] hA,
      orchestrate_fail_step call B [C] _ hB]
    refine ⟨⟨C, (([] ++ [⟨A, call A⟩]) ++ [⟨B, call B⟩]) ++ [⟨C, .success⟩]⟩, ?_, ?_, rfl⟩
    · simp [orchestrate, hC]
    · simp
  · intro order h
    rcases orchestrate_all_fail call order [] h with ⟨atts, h1, h2⟩
    exact ⟨atts, h1, by simpa using h2⟩

theorem orchestrator_failover_witness :
    (∃ r, orchestrate
        (fun p => if p = "gemini-fallback" then .success else .retriableFailure)
        ["gemini", "openai", "gemini-fallback"] [] = .ok r ∧
      r.attempts.length = 3 ∧ r.usedProvider = "gemini-fallback") ∧
    (∃ atts, orchestrate
        (fun p => if p = "gemini-fallback" then .success else .retriableFailure)
        ["gemini", "openai"] [] = .exhausted atts ∧ atts.length = 2) := by
  have h := orchestrator_failover
    (fun p => if p = "gemini-fallback" then .success else .retriableFailure)
    "gemini" "openai" "gemini-fallback" (by decide) (by decide) (by decide)
  exact ⟨h.1, h.2 ["gemini", "openai"] (by decide)⟩

/-! ## Claim C4, C5: session context manager -/

theorem lookupSession_updateSession (store : List (String × Session)) (sid : String)
    (s : Session) (h : (lookupSession store sid).isSome) :
    lookupSession (updateSession store sid s) sid = some s := by
  induction store with
  | nil => simp [lookupSession] at h
  | cons e es ih =>
    by_cases he : e.1 = sid
    · simp [updateSession, he, lookupSession]
    · simp only [lookupSession, if_neg he] at h
      simp only [updateSession, if_neg he, lookupSession, if_neg he]
      exact ih h

theorem lookupSession_removeSession (store : List (String × Session)) (sid : String) :
    lookupSession (removeSession store sid) sid = none := by
  induction store with
  | nil => rfl
  | cons e es ih =>
    by_cases he : e.1 = sid
    · simp [removeSession, he, ih]
    · simp [removeSession, he, lookupSession, ih]

/-- C4: starting with no stored session, a sequence of 7 append operations
with trim bound 5 leaves exactly the 5 most recently appended
(query, answer) pairs in chronological order, and every append resets
expiresAt to now + TTL. -/
theorem session_append_trims_to_five (sid : String)
    (q1 a1 q2 a2 q3 a3 q4 a4 q5 a5 q6 a6 q7 a7 : String)
    (t1 t2 t3 t4 t5 t6 t7 ttl : Nat) :
    (∃ s, lookupSession
        (appendExchange (appendExchange (appendExchange (appendExchange
          (appendExchange (appendExchange (appendExchange []
            sid q1 a1 t1 5 ttl) sid q2 a2 t2 5 ttl) sid q3 a3 t3 5 ttl)
            sid q4 a4 t4 5 ttl) sid q5 a5 t5 5 ttl) sid q6 a6 t6 5 ttl)
            sid q7 a7 t7 5 ttl) sid = some s ∧
      s.exchanges = [(q3, a3), (q4, a4), (q5, a5), (q6, a6), (q7, a7)] ∧
      s.exchanges.length = 5 ∧
      s.expiresAt = t7 + ttl) ∧
    (∀ (store : List (String × Session)) (q a : String) (now n : Nat),
      ∃ s2, lookupSession (appendExchange store sid q a now n ttl) sid = some s2 ∧
        s2.expiresAt = now + ttl) := by
  constructor
  · refine ⟨⟨sid, [(q3, a3), (q4, a4), (q5, a5), (q6, a6), (q7, a7)], t1, t7, t7 + ttl⟩,
      ?_, rfl, rfl, rfl⟩
    simp [appendExchange, lookupSession, updateSession, trimTo]
  · intro store q a now n
    cases h : lookupSession store sid with
    | none =>
      refine ⟨⟨sid, trimTo n [(q, a)], now, now, now + ttl⟩, ?_, rfl⟩
      simp [appendExchange, h, lookupSession]
    | some s =>
      refine ⟨{ s with exchanges := trimTo n (s.exchanges ++ [(q, a)]),
                       lastAccessAt := now, expiresAt := now + ttl }, ?_, rfl⟩
      simp only [appendExchange, h]
      exact lookupSession_updateSession store sid _ (by simp [h])

/-- C5: a get on a session whose expiresAt is earlier than the current
time returns NotFound and purges the session, with no background sweep
involved (expiry is checked lazily inside get itself). -/
theorem session_get_lazy_expiry (store : List (String × Session)) (sid : String)
    (now : Nat) (s : Session) (hs : lookupSession store sid = some s)
    (hexp : s.expiresAt < now) :
    (getSession store sid now).1 = none ∧
    lookupSession (getSession store sid now).2 sid = none := by
  simp [getSession, hs, if_pos hexp, lookupSession_removeSession]

theorem session_get_lazy_expiry_witness :
    ((getSession [("u1", ⟨"u1", [], 0, 0, 5⟩)] "u1" 10).1 = none ∧
      lookupSession (getSession [("u1", ⟨"u1", [], 0, 0, 5⟩)] "u1" 10).2 "u1" = none) :=
  session_get_lazy_expiry [("u1", ⟨"u1", [], 0, 0, 5⟩)] "u1" 10 ⟨"u1", [], 0, 0, 5⟩
    (by decide) (by decide)

/-! ## Claim C6: dual retriever partial-failure policy -/

/-- C6: if exactly one of the two searches fails, the retriever returns a
result built only from the successful list and marked degraded (the
pipeline does not fail); if both searches fail, the pipeline fails with
RetrievalError. -/
theorem dual_retriever_partial_failure (d s : List CandKey) :
    dualRetrieve (.ok d) .failed = .ok ⟨d, [], true⟩ ∧
    dualRetrieve .failed (.ok s) = .ok ⟨[], s, true⟩ ∧
    dualRetrieve (.ok d) (.ok s) = .ok ⟨d, s, false⟩ ∧
    dualRetrieve .failed .failed = .error .bothFailed :=
  ⟨rfl, rfl, rfl, rfl⟩

/-! ## Claim C7: reranker contract -/

theorem scoreCand_cand (f : CandKey → Option ℚ) (c : CandKey) :
    (scoreCand f c).cand = c := by
  unfold scoreCand
  cases f c <;> rfl

theorem scoreCand_of_fail {f : CandKey → Option ℚ} {c : CandKey} (h : f c = none) :
    scoreCand f c = ⟨c, none, true⟩ := by
  simp [scoreCand, h]

theorem placeBack_length (es ss : List RerankedCand) :
    (placeBack es ss).length = es.length := by
  induction es generalizing ss with
  | nil => rfl
  | cons e es ih =>
    cases hf : e.rerankFailed with
    | true => simp [placeBack, hf, ih]
    | false =>
      cases ss with
      | nil => simp [placeBack, hf, ih]
      | cons s ss2 => simp [placeBack, hf, ih]

theorem placeBack_perm (es ss : List RerankedCand)
    (h : ss.length = (es.filter (fun e => !e.rerankFailed)).length) :
    (placeBack es ss).Perm (es.filter (fun e => e.rerankFailed) ++ ss) := by
  induction es generalizing ss with
  | nil =>
    simp only [List.filter_nil, List.length_nil] at h
    rw [List.length_eq_zero] at h
    simp [placeBack, h]
  | cons e es ih =>
    cases hf : e.rerankFailed with
    | true =>
      have h2 : ss.length = (es.filter (fun e => !e.rerankFailed)).length := by
        simpa [hf] using h
      have := ih ss h2
      simpa [placeBack, hf] using this.cons e
    | false =>
      have h2 : ss.length = (es.filter (fun e => !e.rerankFailed)).length + 1 := by
        simpa [hf] using h
      cases ss with
      | nil => simp at h2
      | cons s ss2 =>
        have h3 : ss2.length = (es.filter (fun e => !e.rerankFailed)).length := by
          simpa using h2
        have hrec := (ih ss2 h3).cons s
        have hmid : (s :: (es.filter (fun e => e.rerankFailed) ++ ss2)).Perm
            (es.filter (fun e => e.rerankFailed) ++ s :: ss2) := List.perm_middle.symm
        simpa [placeBack, hf] using hrec.trans hmid

theorem placeBack_getElem_failed (es ss : List RerankedCand) (i : Nat)
    (e : RerankedCand) (he : es[i]? = some e) (hf : e.rerankFailed = true) :
    (placeBack es ss)[i]? = some e := by
  induction es generalizing ss i with
  | nil => simp at he
  | cons e0 es ih =>
    cases i with
    | zero =>
      rw [List.getElem?_cons_zero, Option.some_inj] at he
      subst he
      simp [placeBack, hf]
    | succ j =>
      rw [List.getElem?_cons_succ] at he
      cases hfe : e0.rerankFailed with
      | true => simpa [placeBack, hfe] using ih ss j he
      | false =>
        cases ss with
        | nil => simpa [placeBack, hfe] using ih [] j he
        | cons s ss2 => simpa [placeBack, hfe] using ih ss2 j he

theorem placeBack_filter_not_failed (es ss : List RerankedCand)
    (hss : ∀ x ∈ ss, x.rerankFailed = false)
    (h : ss.length = (es.filter (fun e => !e.rerankFailed)).length) :
    (placeBack es ss).filter (fun e => !e.rerankFailed) = ss := by
  induction es generalizing ss with
  | nil =>
    simp only [List.filter_nil, List.length_nil] at h
    rw [List.length_eq_zero] at h
    simp [placeBack, h]
  | cons e es ih =>
    cases hf : e.rerankFailed with
    | true =>
      have h2 : ss.length = (es.filter (fun e => !e.rerankFailed)).length := by
        simpa [hf] using h
      simpa [placeBack, hf] using ih ss hss h2
    | false =>
      have h2 : ss.length = (es.filter (fun e => !e.rerankFailed)).length + 1 := by
        simpa [hf] using h
      cases ss with
      | nil => simp at h2
      | cons s ss2 =>
        have h3 : ss2.length = (es.filter (fun e => !e.rerankFailed)).length := by
          simpa using h2
        have hs : s.rerankFailed = false := hss s (List.mem_cons_self s ss2)
        simpa [placeBack, hf, hs] using ih ss2 (fun x hx => hss x (List.mem_cons_of_mem s hx)) h3

/-- C7: the reranker returns the same multiset of candidates
(count-preserving) with a rerankScore added; the successfully scored
candidates are re-sorted descending by that score; a candidate whose
individual scoring call fails keeps its fused rank position and is
flagged rerankFailed; and with the backend entirely unavailable the
stage returns the fusion order unchanged, flagged degraded. -/
theorem reranker_contract (f : CandKey → Option ℚ) (fused : List CandKey) :
    ((rerank f fused).map (fun e => e.cand)).Perm fused ∧
    (rerank f fused).length = fused.length ∧
    ((rerank f fused).filter (fun e => !e.rerankFailed)).Sorted rerankGe ∧
    (∀ (i : Nat) (c : CandKey), fused[i]? = some c → f c = none →
      (rerank f fused)[i]? = some (RerankedCand.mk c none true)) ∧
    rerankStage none fused = (fused.map (fun c => ⟨c, none, false⟩), true) ∧
    (∀ g, rerankStage (some g) fused = (rerank g fused, false)) := by
  have hsslen : (List.insertionSort rerankGe
        ((fused.map (scoreCand f)).filter (fun e => !e.rerankFailed))).length =
      ((fused.map (scoreCand f)).filter (fun e => !e.rerankFailed)).length :=
    (List.perm_insertionSort rerankGe _).length_eq
  have hssmem : ∀ x ∈ List.insertionSort rerankGe
        ((fused.map (scoreCand f)).filter (fun e => !e.rerankFailed)),
      x.rerankFailed = false := by
    intro x hx
    have hx2 := (List.perm_insertionSort rerankGe _).mem_iff.mp hx
    have := List.of_mem_filter hx2
    simpa using this
  refine ⟨?_, ?_, ?_, ?_, rfl, fun g => rfl⟩
  · have hperm := placeBack_perm (fused.map (scoreCand f)) _ hsslen
    have hperm2 := hperm.trans
      (((List.perm_insertionSort rerankGe _).append_left
        ((fused.map (scoreCand f)).filter (fun e => e.rerankFailed))).trans
        (List.filter_append_perm _ (fused.map (scoreCand f))))
    have hmap := hperm2.map (fun e => e.cand)
    have hcands : ((fused.map (scoreCand f)).map (fun e => e.cand)) = fused := by
      rw [List.map_map]
      have : ((fun e => RerankedCand.cand e) ∘ scoreCand f) = id := by
        funext c
        exact scoreCand_cand f c
      rw [this, List.map_id]
    rw [hcands] at hmap
    exact hmap
  · rw [rerank, placeBack_length, List.length_map]
  · rw [rerank, placeBack_filter_not_failed _ _ hssmem hsslen]
    exact List.sorted_insertionSort rerankGe _
  · intro i c hc hf
    have hm : (fused.map (scoreCand f))[i]? = some (scoreCand f c) := by
      rw [List.getElem?_map, hc, Option.map_some']
    rw [scoreCand_of_fail hf] at hm
    exact placeBack_getElem_failed _ _ i _ hm rfl

theorem reranker_contract_witness :
    (rerank (fun c => if c.chunkId = 0 then none else some 1)
        [⟨"a", 0⟩, ⟨"b", 1⟩])[0]? = some (RerankedCand.mk ⟨"a", 0⟩ none true) :=
  (reranker_contract (fun c => if c.chunkId = 0 then none else some 1)
      [⟨"a", 0⟩, ⟨"b", 1⟩]).2.2.2.1 0 ⟨"a", 0⟩ rfl rfl

/-! ## Claim C9: fetchWithRetry retry policy -/

/-- Outcomes after which the loop proceeds to another attempt (when
retries remain): non-ok non-4xx responses and non-abort network errors. -/
def retriable : FetchOutcome → Bool
  | .resp r => !(retOK r)
  | .abortError => false
  | .netError => true

theorem retryGo_zero_attempts (o : Nat → FetchOutcome) (a : Nat) :
    (retryGo o a 0).attempts = 1 := by
  cases ho : o a with
  | resp r =>
    cases hr : retOK r
    · simp [retryGo, ho, hr]
    · simp [retryGo, ho, hr]
  | abortError => simp [retryGo, ho]
  | netError => simp [retryGo, ho]

theorem retryGo_attempts_pos (o : Nat → FetchOutcome) (a rem : Nat) :
    1 ≤ (retryGo o a rem).attempts := by
  cases rem with
  | zero => rw [retryGo_zero_attempts]
  | succ rem =>
    cases ho : o a with
    | resp r =>
      cases hr : retOK r
      · simp [retryGo, ho, hr]
      · simp [retryGo, ho, hr]
    | abortError => simp [retryGo, ho]
    | netError => simp [retryGo, ho]

theorem retryGo_attempts_le (o : Nat → FetchOutcome) :
    ∀ (rem a : Nat), (retryGo o a rem).attempts ≤ rem + 1 := by
  intro rem
  induction rem with
  | zero =>
    intro a
    rw [retryGo_zero_attempts]
  | succ rem ih =>
    intro a
    have h2 := ih (a + 1)
    cases ho : o a with
    | resp r =>
      cases hr : retOK r
      · simp only [retryGo, ho, hr]
        simp
        omega
      · simp [retryGo, ho, hr]
    | abortError => simp [retryGo, ho]
    | netError =>
      simp only [retryGo, ho]
      simp
      omega

theorem retryGo_return (o : Nat → FetchOutcome) :
    ∀ (rem a j : Nat) (r : HttpResponse),
      j < (retryGo o a rem).attempts → o (a + j) = .resp r → retOK r = true →
      (retryGo o a rem).result = .returned r (a + j) ∧
        (retryGo o a rem).attempts = j + 1 := by
  intro rem
  induction rem with
  | zero =>
    intro a j r hj ho hr
    rw [retryGo_zero_attempts] at hj
    have hj0 : j = 0 := by omega
    subst hj0
    rw [Nat.add_zero] at ho
    constructor
    · simp [retryGo, ho, hr]
    · rw [retryGo_zero_attempts]
  | succ rem ih =>
    intro a j r hj ho hr
    cases ho2 : o a with
    | resp r2 =>
      cases hr2 : retOK r2
      · cases j with
        | zero =>
          rw [Nat.add_zero] at ho
          have hrr : r2 = r := FetchOutcome.resp.inj (ho2.symm.trans ho)
          rw [hrr, hr] at hr2
          exact Bool.noConfusion hr2
        | succ j2 =>
          simp only [retryGo, ho2, hr2] at hj ⊢
          simp at hj ⊢
          have hidx : a + (j2 + 1) = (a + 1) + j2 := by omega
          rw [hidx] at ho
          have := ih (a + 1) j2 r (by omega) ho hr
          rw [hidx]
          exact ⟨this.1, by omega⟩
      · cases j with
        | zero =>
          rw [Nat.add_zero] at ho
          have hrr : r2 = r := FetchOutcome.resp.inj (ho2.symm.trans ho)
          subst hrr
          constructor
          · simp [retryGo, ho2, hr2]
          · simp [retryGo, ho2, hr2]
        | succ j2 =>
          simp [retryGo, ho2, hr2] at hj
    | abortError =>
      cases j with
      | zero =>
        rw [Nat.add_zero] at ho
        rw [ho2] at ho
        exact FetchOutcome.noConfusion ho
      | succ j2 =>
        simp [retryGo, ho2] at hj
    | netError =>
      cases j with
      | zero =>
        rw [Nat.add_zero] at ho
        rw [ho2] at ho
        exact FetchOutcome.noConfusion ho
      | succ j2 =>
        simp only [retryGo, ho2] at hj ⊢
        simp at hj ⊢
        have hidx : a + (j2 + 1) = (a + 1) + j2 := by omega
        rw [hidx] at ho
        have := ih (a + 1) j2 r (by omega) ho hr
        rw [hidx]
        exact ⟨this.1, by omega⟩

theorem retryGo_abort (o : Nat → FetchOutcome) :
    ∀ (rem a j : Nat),
      j < (retryGo o a rem).attempts → o (a + j) = .abortError →
      (retryGo o a rem).result = .abortThrown (a + j) ∧
        (retryGo o a rem).attempts = j + 1 := by
  intro rem
  induction rem with
  | zero =>
    intro a j hj ho
    rw [retryGo_zero_attempts] at hj
    have hj0 : j = 0 := by omega
    subst hj0
    rw [Nat.add_zero] at ho
    constructor
    · simp [retryGo, ho]
    · rw [retryGo_zero_attempts]
  | succ rem ih =>
    intro a j hj ho
    cases ho2 : o a with
    | resp r2 =>
      cases hr2 : retOK r2
      · cases j with
        | zero =>
          rw [Nat.add_zero] at ho
          rw [ho2] at ho
          exact FetchOutcome.noConfusion ho
        | succ j2 =>
          simp only [retryGo, ho2, hr2] at hj ⊢
          simp at hj ⊢
          have hidx : a + (j2 + 1) = (a + 1) + j2 := by omega
          rw [hidx] at ho
          have := ih (a + 1) j2 (by omega) ho
          rw [hidx]
          exact ⟨this.1, by omega⟩
      · cases j with
        | zero =>
          rw [Nat.add_zero] at ho
          rw [ho2] at ho
          exact FetchOutcome.noConfusion ho
        | succ j2 =>
          simp [retryGo, ho2, hr2] at hj
    | abortError =>
      cases j with
      | zero =>
        rw [Nat.add_zero]
        constructor
        · simp [retryGo, ho2]
        · simp [retryGo, ho2]
      | succ j2 =>
        simp [retryGo, ho2] at hj
    | netError =>
      cases j with
      | zero =>
        rw [Nat.add_zero] at ho
        rw [ho2] at ho
        exact FetchOutcome.noConfusion ho
      | succ j2 =>
        simp only [retryGo, ho2] at hj ⊢
        simp at hj ⊢
        have hidx : a + (j2 + 1) = (a + 1) + j2 := by omega
        rw [hidx] at ho
        have := ih (a + 1) j2 (by omega) ho
        rw [hidx]
        exact ⟨this.1, by omega⟩

theorem retryGo_retry_not_retOK (o : Nat → FetchOutcome) :
    ∀ (rem a j : Nat) (r : HttpResponse),
      j + 1 < (retryGo o a rem).attempts → o (a + j) = .resp r →
      retOK r = false := by
  intro rem
  induction rem with
  | zero =>
    intro a j r hj _
    rw [retryGo_zero_attempts] at hj
    omega
  | succ rem ih =>
    intro a j r hj ho
    cases ho2 : o a with
    | resp r2 =>
      cases hr2 : retOK r2
      · cases j with
        | zero =>
          rw [Nat.add_zero] at ho
          have hrr : r2 = r := FetchOutcome.resp.inj (ho2.symm.trans ho)
          rw [← hrr]
          exact hr2
        | succ j2 =>
          simp only [retryGo, ho2, hr2] at hj
          simp at hj
          have hidx : a + (j2 + 1) = (a + 1) + j2 := by omega
          rw [hidx] at ho
          exact ih (a + 1) j2 r (by omega) ho
      · simp [retryGo, ho2, hr2] at hj
    | abortError =>
      simp [retryGo, ho2] at hj
    | netError =>
      cases j with
      | zero =>
        rw [Nat.add_zero] at ho
        rw [ho2] at ho
        exact FetchOutcome.noConfusion ho
      | succ j2 =>
        simp only [retryGo, ho2] at hj
        simp at hj
        have hidx : a + (j2 + 1) = (a + 1) + j2 := by omega
        rw [hidx] at ho
        exact ih (a + 1) j2 r (by omega) ho

theorem retryGo_retriable_continues (o : Nat → FetchOutcome) :
    ∀ (rem a j : Nat),
      j < (retryGo o a rem).attempts → j < rem → retriable (o (a + j)) = true →
      j + 1 < (retryGo o a rem).attempts := by
  intro rem
  induction rem with
  | zero =>
    intro a j _ hj2 _
    omega
  | succ rem ih =>
    intro a j hj hj2 hret
    cases ho2 : o a with
    | resp r2 =>
      cases hr2 : retOK r2
      · cases j with
        | zero =>
          simp only [retryGo, ho2, hr2]
          simp
          exact retryGo_attempts_pos o (a + 1) rem
        | succ j2 =>
          simp only [retryGo, ho2, hr2] at hj ⊢
          simp at hj ⊢
          have hidx : a + (j2 + 1) = (a + 1) + j2 := by omega
          rw [hidx] at hret
          have := ih (a + 1) j2 (by omega) (by omega) hret
          omega
      · cases j with
        | zero =>
          rw [Nat.add_zero] at hret
          rw [ho2] at hret
          simp [retriable, hr2] at hret
        | succ j2 =>
          simp [retryGo, ho2, hr2] at hj
    | abortError =>
      cases j with
      | zero =>
        rw [Nat.add_zero] at hret
        rw [ho2] at hret
        simp [retriable] at hret
      | succ j2 =>
        simp [retryGo, ho2] at hj
    | netError =>
      cases j with
      | zero =>
        simp only [retryGo, ho2]
        simp
        exact retryGo_attempts_pos o (a + 1) rem
      | succ j2 =>
        simp only [retryGo, ho2] at hj ⊢
        simp at hj ⊢
        have hidx : a + (j2 + 1) = (a + 1) + j2 := by omega
        rw [hidx] at hret
        have := ih (a + 1) j2 (by omega) (by omega) hret
        omega

theorem retryGo_delays (o : Nat → FetchOutcome) :
    ∀ (rem a : Nat),
      (retryGo o a rem).delays =
        (List.range ((retryGo o a rem).attempts - 1)).map
          (fun i => backoffDelay (a + i)) := by
  intro rem
  induction rem with
  | zero =>
    intro a
    have h1 := retryGo_zero_attempts o a
    cases ho : o a with
    | resp r =>
      cases hr : retOK r
      · simp [retryGo, ho, hr]
      · simp [retryGo, ho, hr]
    | abortError => simp [retryGo, ho]
    | netError => simp [retryGo, ho]
  | succ rem ih =>
    intro a
    have hpos := retryGo_attempts_pos o (a + 1) rem
    have hstep : backoffDelay a :: (retryGo o (a + 1) rem).delays =
        (List.range ((retryGo o (a + 1) rem).attempts + 1 - 1)).map
          (fun i => backoffDelay (a + i)) := by
      rw [ih (a + 1)]
      have hn : (retryGo o (a + 1) rem).attempts + 1 - 1 =
          ((retryGo o (a + 1) rem).attempts - 1) + 1 := by omega
      rw [hn, List.range_succ_eq_map, List.map_cons, List.map_map]
      rw [Nat.add_zero]
      refine congrArg (backoffDelay a :: ·) ?_
      refine List.map_congr_left ?_
      intro i _
      show backoffDelay (a + 1 + i) = backoffDelay (a + Nat.succ i)
      refine congrArg backoffDelay ?_
      omega
    cases ho : o a with
    | resp r =>
      cases hr : retOK r
      · simp only [retryGo, ho, hr]
        simpa using hstep
      · simp [retryGo, ho, hr]
    | abortError => simp [retryGo, ho]
    | netError =>
      simp only [retryGo, ho]
      simpa using hstep

theorem retOK_eq_true_iff (r : HttpResponse) :
    retOK r = true ↔ (r.ok = true ∨ (400 ≤ r.status ∧ r.status < 500)) := by
  simp [retOK]

/-- C9 (amended): a response that is ok or has a 4xx status is returned
immediately and ends the loop; a response that led to a further attempt
is neither ok nor 4xx (in particular every 5xx retried response is of
this kind, but so are other non-ok statuses outside [400, 500)); a
retriable outcome with retries remaining does lead to a further attempt;
at most maxRetries + 1 total attempts are made; the backoff delay before
the attempt after attempt i is min(1000 * 2^i, 5000) milliseconds; and
an AbortError is rethrown immediately with no retry. -/
theorem fetchWithRetry_policy (o : Nat → FetchOutcome) (m : Nat) :
    (∀ (i : Nat) (r : HttpResponse), i < (fetchWithRetry o m).attempts →
      o i = .resp r → (r.ok = true ∨ (400 ≤ r.status ∧ r.status < 500)) →
      (fetchWithRetry o m).result = .returned r i ∧
        (fetchWithRetry o m).attempts = i + 1) ∧
    (∀ (i : Nat) (r : HttpResponse), i + 1 < (fetchWithRetry o m).attempts →
      o i = .resp r → r.ok = false ∧ ¬(400 ≤ r.status ∧ r.status < 500)) ∧
    (∀ i : Nat, i < (fetchWithRetry o m).attempts → i < m →
      retriable (o i) = true → i + 1 < (fetchWithRetry o m).attempts) ∧
    (fetchWithRetry o m).attempts ≤ m + 1 ∧
    (fetchWithRetry o m).delays =
      (List.range ((fetchWithRetry o m).attempts - 1)).map backoffDelay ∧
    (∀ i : Nat, i < (fetchWithRetry o m).attempts → o i = .abortError →
      (fetchWithRetry o m).result = .abortThrown i ∧
        (fetchWithRetry o m).attempts = i + 1) := by
  refine ⟨?_, ?_, ?_, ?_, ?_, ?_⟩
  · intro i r hi ho hok
    have ho2 : o (0 + i) = .resp r := by simpa using ho
    have := retryGo_return o m 0 i r (by simpa using hi) ho2
      ((retOK_eq_true_iff r).mpr hok)
    simpa [fetchWithRetry] using this
  · intro i r hi ho
    have ho2 : o (0 + i) = .resp r := by simpa using ho
    have hfalse := retryGo_retry_not_retOK o m 0 i r (by simpa using hi) ho2
    have := (retOK_eq_true_iff r).not
    simp only [retOK] at hfalse
    constructor
    · cases hok : r.ok with
      | false => rfl
      | true => simp [hok] at hfalse
    · intro hcl
      simp [hcl.1, hcl.2] at hfalse
  · intro i hi him hret
    have hret2 : retriable (o (0 + i)) = true := by simpa using hret
    have := retryGo_retriable_continues o m 0 i (by simpa using hi) him hret2
    simpa [fetchWithRetry] using this
  · exact retryGo_attempts_le o m 0
  · have := retryGo_delays o m 0
    simpa [fetchWithRetry] using this
  · intro i hi ho
    have ho2 : o (0 + i) = .abortError := by simpa using ho
    have := retryGo_abort o m 0 i (by simpa using hi) ho2
    simpa [fetchWithRetry] using this

theorem fetchWithRetry_policy_witness :
    (fetchWithRetry (fun _ => .resp ⟨true, 200⟩) 3).result =
        .returned ⟨true, 200⟩ 0 ∧
      (fetchWithRetry (fun _ => .resp ⟨true, 200⟩) 3).attempts = 1 :=
  (fetchWithRetry_policy (fun _ => .resp ⟨true, 200⟩) 3).1 0 ⟨true, 200⟩
    (by decide) rfl (Or.inl rfl)

/-- C9 counterexample: the claim says only responses with status at least
500 cause a retry, but a non-ok response with status 300 (outside
[400, 500)) is also retried: with every attempt returning status 300 and
maxRetries = 3, four attempts are made. -/
theorem fetchWithRetry_retries_sub500_counterexample :
    ¬ (∀ (o : Nat → FetchOutcome) (m i : Nat) (r : HttpResponse),
        o i = .resp r → i + 1 < (fetchWithRetry o m).attempts →
        500 ≤ r.status) := by
  intro h
  have h4 : (fetchWithRetry (fun _ => .resp ⟨false, 300⟩) 3).attempts = 4 := by decide
  have := h (fun _ => .resp ⟨false, 300⟩) 3 0 ⟨false, 300⟩ rfl (by rw [h4]; omega)
  exact absurd this (by decide)

/-! ## Claim C10: RateLimiter sliding-window bound -/

theorem filter_window_twice (win told tnew : Int) (h : told ≤ tnew) (l : List Int) :
    (l.filter (fun a => told - a < win)).filter (fun a => tnew - a < win) =
      l.filter (fun a => tnew - a < win) := by
  induction l with
  | nil => rfl
  | cons x xs ih =>
    by_cases h2 : tnew - x < win
    · have h1 : told - x < win := by omega
      simp [List.filter_cons, h1, h2, ih]
    · by_cases h1 : told - x < win
      · simp [List.filter_cons, h1, h2, ih]
      · simp [List.filter_cons, h1, h2, ih]

theorem runLimiter_append (rl : RateLimiter) (ts1 ts2 : List Int) :
    runLimiter rl (ts1 ++ ts2) =
      ((runLimiter (runLimiter rl ts1).1 ts2).1,
        (runLimiter rl ts1).2 ++ (runLimiter (runLimiter rl ts1).1 ts2).2) := by
  induction ts1 generalizing rl with
  | nil => simp [runLimiter]
  | cons t ts ih =>
    simp only [List.cons_append, runLimiter, ih]
    by_cases hb : ((rl.isAllowed t).1 : Bool)
    · simp [hb, ih, List.append_assoc]
    · simp [hb, ih]

theorem runLimiter_const (rl : RateLimiter) (ts : List Int) :
    (runLimiter rl ts).1.maxRequests = rl.maxRequests ∧
    (runLimiter rl ts).1.windowMs = rl.windowMs := by
  induction ts generalizing rl with
  | nil => exact ⟨rfl, rfl⟩
  | cons t ts ih =>
    simp only [runLimiter]
    have h2 := ih (rl.isAllowed t).2
    have h3 : (rl.isAllowed t).2.maxRequests = rl.maxRequests ∧
        (rl.isAllowed t).2.windowMs = rl.windowMs := by
      simp only [RateLimiter.isAllowed]
      by_cases hc :
        (rl.requests.filter (fun a => t - a < rl.windowMs)).length < rl.maxRequests
      · simp [hc]
      · simp [hc]
    exact ⟨h2.1.trans h3.1, h2.2.trans h3.2⟩

theorem isAllowed_true_iff (rl : RateLimiter) (t : Int) :
    (rl.isAllowed t).1 = true ↔
      (rl.requests.filter (fun a => t - a < rl.windowMs)).length < rl.maxRequests := by
  simp only [RateLimiter.isAllowed]
  by_cases hc :
    (rl.requests.filter (fun a => t - a < rl.windowMs)).length < rl.maxRequests
  · simp [hc]
  · simp [hc]

theorem runLimiter_filter_invariant (win : Int) (hwin : 0 < win) :
    ∀ (ts A : List Int) (t0 tq : Int) (max : Nat),
      (∀ a ∈ A, a ≤ t0) →
      List.Chain (· ≤ ·) t0 ts →
      t0 ≤ tq →
      (∀ a ∈ ts, a ≤ tq) →
      ((runLimiter ⟨A.filter (fun a => t0 - a < win), max, win⟩ ts).1.requests).filter
          (fun a => tq - a < win) =
        (A ++ (runLimiter ⟨A.filter (fun a => t0 - a < win), max, win⟩ ts).2).filter
          (fun a => tq - a < win) := by
  intro ts
  induction ts with
  | nil =>
    intro A t0 tq max hA hch htq hts
    simp only [runLimiter, List.append_nil]
    exact filter_window_twice win t0 tq htq A
  | cons t ts ih =>
    intro A t0 tq max hA hch htq hts
    cases hch with
    | cons ht0t hch2 =>
      have hreq : (A.filter (fun a => t0 - a < win)).filter (fun a => t - a < win) =
          A.filter (fun a => t - a < win) := filter_window_twice win t0 t ht0t A
      have htqt : t ≤ tq := hts t (List.mem_cons_self t ts)
      have hts2 : ∀ a ∈ ts, a ≤ tq := fun a ha => hts a (List.mem_cons_of_mem t ha)
      by_cases hc : (A.filter (fun a => t - a < win)).length < max
      · have hstep : RateLimiter.isAllowed ⟨A.filter (fun a => t0 - a < win), max, win⟩ t =
            (true, ⟨A.filter (fun a => t - a < win) ++ [t], max, win⟩) := by
          simp only [RateLimiter.isAllowed]
          rw [hreq, if_pos hc]
        have hcomb : A.filter (fun a => t - a < win) ++ [t] =
            (A ++ [t]).filter (fun a => t - a < win) := by
          rw [List.filter_append]
          have : [t].filter (fun a => t - a < win) = [t] := by
            simp
            omega
          rw [this]
        have hA2 : ∀ a ∈ A ++ [t], a ≤ t := by
          intro a ha
          rcases List.mem_append.mp ha with h | h
          · exact le_trans (hA a h) ht0t
          · rw [List.mem_singleton.mp h]
        have ihx := ih (A ++ [t]) t tq max hA2 hch2 htqt hts2
        simp only [runLimiter, hstep]
        rw [hcomb, ihx]
        simp [List.append_assoc]
      · have hstep : RateLimiter.isAllowed ⟨A.filter (fun a => t0 - a < win), max, win⟩ t =
            (false, ⟨A.filter (fun a => t - a < win), max, win⟩) := by
          simp only [RateLimiter.isAllowed]
          rw [hreq, if_neg hc]
        have hA2 : ∀ a ∈ A, a ≤ t := fun a ha => le_trans (hA a ha) ht0t
        have ihx := ih A t tq max hA2 hch2 htqt hts2
        simp only [runLimiter, hstep]
        simpa using ihx

/-- C10 (amended): over any sequence of calls at non-decreasing times the
limiter admits, within any half-open window (T, T + windowMs] of length
windowMs, at most maxRequests calls; and getRemainingRequests always
returns a value between 0 and maxRequests. -/
theorem rateLimiter_window_bound (max : Nat) (win : Int) (hwin : 0 < win) :
    (∀ ts : List Int, List.Pairwise (· ≤ ·) ts → ∀ T : Int,
      (runLimiter ⟨[], max, win⟩ ts).2.countP
          (fun a => decide (T < a) && decide (a ≤ T + win)) ≤ max) ∧
    (∀ (rl : RateLimiter) (now : Int),
      0 ≤ (rl.getRemainingRequests now).1 ∧
      (rl.getRemainingRequests now).1 ≤ (rl.maxRequests : Int)) := by
  constructor
  · intro ts
    induction ts using List.reverseRecOn with
    | nil =>
      intro _ T
      simp [runLimiter]
    | append_singleton ts t ih =>
      intro hp T
      have hp2 : List.Pairwise (· ≤ ·) ts :=
        List.Pairwise.sublist (List.sublist_append_left ts [t]) hp
      have hts : ∀ a ∈ ts, a ≤ t := by
        intro a ha
        exact (List.pairwise_append.mp hp).2.2 a ha t (by simp)
      have hfilt : ((runLimiter ⟨[], max, win⟩ ts).1.requests).filter
            (fun a => t - a < win) =
          ((runLimiter ⟨[], max, win⟩ ts).2).filter (fun a => t - a < win) := by
        cases ts with
        | nil => simp [runLimiter]
        | cons h rest =>
          have hch : List.Chain (· ≤ ·) h (h :: rest) :=
            List.Chain.cons (le_refl h) (List.Pairwise.chain' hp2)
          have hinv := runLimiter_filter_invariant win hwin (h :: rest) [] h t max
            (by simp) hch (hts h (by simp)) hts
          simpa using hinv
      rw [runLimiter_append]
      simp only [List.countP_append]
      have hone : (runLimiter (runLimiter ⟨[], max, win⟩ ts).1 [t]).2 =
          if ((runLimiter ⟨[], max, win⟩ ts).1.isAllowed t).1 = true
          then [t] else [] := by
        simp [runLimiter]
      rw [hone]
      by_cases hall : ((runLimiter ⟨[], max, win⟩ ts).1.isAllowed t).1 = true
      · rw [if_pos hall]
        by_cases hPt : T < t ∧ t ≤ T + win
        · have h1 : List.countP (fun a => decide (T < a) && decide (a ≤ T + win)) [t]
              = 1 := by
            simp [hPt.1, hPt.2]
          rw [h1]
          have hmono : (runLimiter ⟨[], max, win⟩ ts).2.countP
                (fun a => decide (T < a) && decide (a ≤ T + win)) ≤
              (runLimiter ⟨[], max, win⟩ ts).2.countP
                (fun a => decide (t - a < win)) := by
            refine List.countP_mono_left ?_
            intro a _ hPa
            simp only [Bool.and_eq_true, decide_eq_true_eq] at hPa
            simp only [decide_eq_true_eq]
            omega
          have hlen : (runLimiter ⟨[], max, win⟩ ts).2.countP
                (fun a => decide (t - a < win)) =
              ((runLimiter ⟨[], max, win⟩ ts).1.requests.filter
                (fun a => t - a < win)).length := by
            rw [List.countP_eq_length_filter, hfilt]
          have hlt : ((runLimiter ⟨[], max, win⟩ ts).1.requests.filter
              (fun a => t - a < win)).length < max := by
            have hiff := isAllowed_true_iff (runLimiter ⟨[], max, win⟩ ts).1 t
            have hcst := runLimiter_const ⟨[], max, win⟩ ts
            rw [hcst.1, hcst.2] at hiff
            exact hiff.mp hall
          omega
        · have h0 : List.countP (fun a => decide (T < a) && decide (a ≤ T + win)) [t]
              = 0 := by
            rcases not_and_or.mp hPt with h | h
            · simp [h]
            · simp [h]
          rw [h0]
          have := ih hp2 T
          omega
      · rw [if_neg hall]
        have := ih hp2 T
        simp only [List.countP_nil]
        omega
  · intro rl now
    constructor
    · simp only [RateLimiter.getRemainingRequests]
      exact le_max_left 0 _
    · simp only [RateLimiter.getRemainingRequests]
      refine max_le ?_ ?_
      · exact Int.ofNat_nonneg _
      · have h0 : (0:ℤ) ≤
            ((rl.requests.filter (fun a => now - a < rl.windowMs)).length : ℤ) :=
          Int.ofNat_nonneg _
        omega

theorem rateLimiter_window_bound_witness :
    (runLimiter ⟨[], 2, 10⟩ [0, 1, 2]).2.countP
        (fun a => decide ((0:Int) < a) && decide (a ≤ 0 + 10)) ≤ 2 ∧
      (0 ≤ ((⟨[], 2, 10⟩ : RateLimiter).getRemainingRequests 0).1 ∧
        ((⟨[], 2, 10⟩ : RateLimiter).getRemainingRequests 0).1 ≤ (2 : Int)) := by
  have h := rateLimiter_window_bound 2 10 (by norm_num)
  exact ⟨h.1 [0, 1, 2] (by decide) 0, h.2 ⟨[], 2, 10⟩ 0⟩

/-- C10 counterexample: with calls at the arbitrary (non-monotone) times
[0, 1, 100, 5], a limiter with maxRequests = 2 and windowMs = 10 admits
all four calls, and three of the admitted times (0, 1 and 5) lie inside
the single length-10 window (-1, 9], exceeding maxRequests = 2. -/
theorem rateLimiter_window_bound_counterexample :
    (runLimiter ⟨[], 2, 10⟩ [0, 1, 100, 5]).2 = [0, 1, 100, 5] ∧
    (runLimiter ⟨[], 2, 10⟩ [0, 1, 100, 5]).2.countP
        (fun a => decide ((-1:Int) < a) && decide (a ≤ -1 + 10)) = 3 ∧
    ¬ (3 ≤ 2) := by
  refine ⟨?_, ?_, by omega⟩ <;> decide
